import Mathlib

/-!
Binary tree container (`Tree/BinaryTree/C++/binaryTree.cpp`).

A shallow embedding of the `TreeNode<T>` / `BinaryTree<T>` classes.

* A `TreeNode<T>*` is a value of `TreeNode α`: `null` is the null pointer and
  `node data left right` is a pointer to a node with these three fields.  The
  `BinaryTree` object is its only field, `root`.
* The address of a node inside a tree is the list of child links followed from
  the root (`false` = `left`, `true` = `right`).  Writing through a pointer is
  a functional update at that address.
* `int` results (`height`) are `Nat`: a height never exceeds the node count.
* `insert` is total: its loop recurses on the number of nodes hanging off the
  queued pointers, which decreases at every iteration.  Concrete trees built
  by `insert` are evaluated with `simp [insertAll, insert, insertLoop, setSubtree]`.
* `deleteNode` returns how the call ended together with `root` afterwards, so
  that the state left behind by a throw can be stated.
* For the renderer `T` is `char` (`string(1, node->data)`), a `string` is a
  `List Char`, and a write `s[i] = c` outside the string makes `buildTree`
  return `none`.  `print` returns the lines it writes to `cout`.
-/

namespace BinaryTree

/-- A pointer to a `TreeNode<T>`: null, or a node with `data`, `left`, `right`. -/
inductive TreeNode (α : Type) where
  | null : TreeNode α
  | node (data : α) (left : TreeNode α) (right : TreeNode α) : TreeNode α
  deriving DecidableEq, Repr

open TreeNode

variable {α : Type}

/-- Number of nodes reachable from a pointer. -/
def size : TreeNode α → Nat
  | null => 0
  | node _ l r => size l + 1 + size r

/-- The pointer found by following the links `p` from `t`; `none` when a null
pointer would have to be dereferenced on the way. -/
def subtreeAt : TreeNode α → List Bool → Option (TreeNode α)
  | t, [] => some t
  | null, _ :: _ => none
  | node _ l _, false :: p => subtreeAt l p
  | node _ _ r, true :: p => subtreeAt r p

/-- The `data` field of the node at address `p`, when there is a node there. -/
def dataAt (t : TreeNode α) (p : List Bool) : Option α :=
  match subtreeAt t p with
  | some (node d _ _) => some d
  | _ => none

/-- Overwrite the pointer slot at address `p` with `s` (`x->left = s`,
`x->right = s` or `root = s`). -/
def setSubtree : TreeNode α → List Bool → TreeNode α → TreeNode α
  | _, [], s => s
  | null, _ :: _, _ => null
  | node d l r, false :: p, s => node d (setSubtree l p s) r
  | node d l r, true :: p, s => node d l (setSubtree r p s)

/-- Overwrite the `data` field of the node at address `p` (`x->data = v`). -/
def setData : TreeNode α → List Bool → α → TreeNode α
  | null, _, _ => null
  | node _ l r, [], v => node v l r
  | node d l r, false :: p, v => node d (setData l p v) r
  | node d l r, true :: p, v => node d l (setData r p v)

/-- Total number of nodes hanging off the pointers waiting in the queue. -/
def queueWeight (q : List (List Bool × TreeNode α)) : Nat :=
  (q.map (fun e => size e.2)).sum

/-- The `while (!q.empty())` loop of `insert`.  A queue entry is a node pointer:
its address in the tree together with the node it points to (the tree is not
written before the loop returns, so the node read through the pointer is the
one recorded when it was pushed). -/
def insertLoop (root newNode : TreeNode α) :
    List (List Bool × TreeNode α) → TreeNode α
  | [] => root
  | (_, null) :: _ => root
  | (p, node _ null _) :: _ => setSubtree root (p ++ [false]) newNode
  | (p, node _ (node _ _ _) null) :: _ => setSubtree root (p ++ [true]) newNode
  | (p, node _ (node d₁ l₁ r₁) (node d₂ l₂ r₂)) :: q =>
      insertLoop root newNode
        (q ++ [(p ++ [false], node d₁ l₁ r₁), (p ++ [true], node d₂ l₂ r₂)])
termination_by q => queueWeight q
decreasing_by
  simp [queueWeight, size]
  omega

/-- `BinaryTree::insert`. -/
def insert (root : TreeNode α) (value : α) : TreeNode α :=
  match root with
  | null => node value null null
  | node d l r => insertLoop (node d l r) (node value null null) [([], node d l r)]

/-- Insert the values of a list one after the other, first element first. -/
def insertAll (root : TreeNode α) (values : List α) : TreeNode α :=
  values.foldl insert root

/-- `BinaryTree::height(TreeNode*)`. -/
def height : TreeNode α → Nat
  | null => 0
  | node _ l r => 1 + max (height l) (height r)

/-- `BinaryTree::preOrder(TreeNode*, vector<T>&)`: appends to `result`. -/
def preOrderRec : TreeNode α → List α → List α
  | null, result => result
  | node d l r, result => preOrderRec r (preOrderRec l (result ++ [d]))

/-- `BinaryTree::preOrder()`. -/
def preOrder (root : TreeNode α) : List α := preOrderRec root []

/-- `BinaryTree::inOrder(TreeNode*, vector<T>&)`: appends to `result`. -/
def inOrderRec : TreeNode α → List α → List α
  | null, result => result
  | node d l r, result => inOrderRec r (inOrderRec l result ++ [d])

/-- `BinaryTree::inOrder()`. -/
def inOrder (root : TreeNode α) : List α := inOrderRec root []

/-- `BinaryTree::postOrder(TreeNode*, vector<T>&)`: appends to `result`. -/
def postOrderRec : TreeNode α → List α → List α
  | null, result => result
  | node d l r, result => postOrderRec r (postOrderRec l result) ++ [d]

/-- `BinaryTree::postOrder()`. -/
def postOrder (root : TreeNode α) : List α := postOrderRec root []

/-- `BinaryTree::find(T, TreeNode*)`; the returned pointer is the address of the
located node relative to `node`, `none` is `nullptr`. -/
def find [DecidableEq α] (value : α) : TreeNode α → Option (List Bool)
  | null => none
  | node d l r =>
    if d = value then some []
    else
      match find value l with
      | some leftRes => some (false :: leftRes)
      | none => (find value r).map (fun res => true :: res)

/-- How a call of `deleteNode` ends. -/
inductive Outcome where
  | returned : Outcome
  | threw (what : String) : Outcome
  deriving DecidableEq, Repr

/-- The loop `while (lastRight->right) { parent = lastRight; lastRight = lastRight->right; }`
run from a node with fields `data`, `right` at address `lastRight`; the result
is the final `parent` (`none` is `nullptr`), the final `lastRight` and
`lastRight->data`. -/
def walkRight : Option (List Bool) → List Bool → α → TreeNode α →
    Option (List Bool) × List Bool × α
  | parent, lastRight, data, null => (parent, lastRight, data)
  | _, lastRight, _, node d _ r => walkRight (some lastRight) (lastRight ++ [true]) d r

/-- `BinaryTree::deleteNode`: how the call ends, and `root` afterwards. -/
def deleteNode [DecidableEq α] (root : TreeNode α) (value : α) : Outcome × TreeNode α :=
  match find value root with
  | none => (Outcome.threw "Node does not exist.", root)
  | some target =>
    match root with
    | null => (Outcome.threw "Node does not exist.", root) -- not reached: `find` on a null root is `nullptr`
    | node d _ r =>
      match walkRight none [] d r with
      | (parent, _, lastData) =>
        let root₁ := setData root target lastData
        match parent with
        | none => (Outcome.returned, null)
        | some par => (Outcome.returned, setSubtree root₁ (par ++ [true]) null)

/-- The addresses of the nodes of a tree in the order a root-then-left-then-right
depth-first search meets them. -/
def preOrderNodes : TreeNode α → List (List Bool)
  | null => []
  | node _ l r =>
    [] :: ((preOrderNodes l).map (fun p => false :: p) ++
           (preOrderNodes r).map (fun p => true :: p))

/-- The address of the rightmost-right-chain node: follow `right` links from
the root until a node without a right child is reached. -/
def rightChain : TreeNode α → List Bool
  | null => []
  | node _ _ null => []
  | node _ _ (node d l r) => true :: rightChain (node d l r)

/-- Heap numbering of addresses: the root is 1 and the children of node `i`
are `2 * i` (left) and `2 * i + 1` (right). -/
def heapIndex (p : List Bool) : Nat :=
  p.foldl (fun i b => 2 * i + (if b then 1 else 0)) 1

/-- `BinaryTree::NodeInfo`.  A `string` is the list of its characters; the
`int` fields are sums of string lengths and are kept as `Nat`. -/
structure NodeInfo where
  text : List Char
  width : Nat
  middle : Nat
  lines : List (List Char)
  deriving DecidableEq, Repr

/-- The write `s[i] = c` into a `string`; the index is computed in `ℤ`, and the
result is `none` when it is not an index of `s` (the write is out of range). -/
def stringSet (s : List Char) (i : Int) (c : Char) : Option (List Char) :=
  if 0 ≤ i ∧ i < s.length then some (s.set i.toNat c) else none

/-- The body of `buildTree` for a non-null node, after the two recursive calls
have returned `left` and `right`.  `T` is `char`: `val` is `string(1, data)`. -/
def buildNode (data : Char) (left right : NodeInfo) : Option NodeInfo :=
  let val : List Char := [data]
  let width := left.width + val.length + right.width
  let middle := left.width + val.length / 2
  -- first line: node value
  let lines₀ := [List.replicate left.width ' ' ++ val ++ List.replicate right.width ' ']
  -- second line: branches
  let branch₀ := List.replicate width ' '
  match (if left.lines ≠ [] then stringSet branch₀ ((left.width : Int) - 1) '/'
         else some branch₀) with
  | none => none
  | some branch₁ =>
    match (if right.lines ≠ [] then
             stringSet branch₁ ((left.width : Int) + (val.length : Int)) (Char.ofNat 92)
           else some branch₁) with
    | none => none
    | some branch₂ =>
      let lines₁ := lines₀ ++ [branch₂]
      -- merge children
      let height := max left.lines.length right.lines.length
      let merged := (List.range height).map (fun i =>
        left.lines.getD i (List.replicate left.width ' ') ++
          List.replicate val.length ' ' ++
          right.lines.getD i (List.replicate right.width ' '))
      some ⟨val, width, middle, lines₁ ++ merged⟩

/-- `BinaryTree::buildTree`; `none` when a branch symbol would be written
outside the branch line. -/
def buildTree : TreeNode Char → Option NodeInfo
  | null => some ⟨[], 0, 0, []⟩
  | node data l r =>
    match buildTree l, buildTree r with
    | some left, some right => buildNode data left right
    | _, _ => none

/-- `BinaryTree::print`: the lines written to `cout`, each followed by `endl`. -/
def print (root : TreeNode Char) : Option (List (List Char)) :=
  match root with
  | null => some []
  | node d l r => (buildTree (node d l r)).map (fun tree => tree.lines)

/-- The branch line `buildTree` produces from the renderings of the two
children when both writes are in range: `width` spaces, then `/` written at
column `left.width - 1` when the left rendering has lines, then a backslash
written at column `left.width + 1` when the right rendering has lines. -/
def branchLine (left right : NodeInfo) : List Char :=
  let branch₀ := List.replicate (left.width + 1 + right.width) ' '
  let branch₁ := if left.lines ≠ [] then branch₀.set (left.width - 1) '/' else branch₀
  if right.lines ≠ [] then branch₁.set (left.width + 1) (Char.ofNat 92) else branch₁

/-- The lines `buildTree` appends in its merge loop. -/
def mergedLines (left right : NodeInfo) : List (List Char) :=
  (List.range (max left.lines.length right.lines.length)).map (fun i =>
    left.lines.getD i (List.replicate left.width ' ') ++ List.replicate 1 ' ' ++
      right.lines.getD i (List.replicate right.width ' '))

/-! ## Traversals -/

theorem preOrderRec_eq (t : TreeNode α) (acc : List α) :
    preOrderRec t acc = acc ++ preOrder t := by
  induction t generalizing acc with
  | null => simp [preOrder, preOrderRec]
  | node d l r ihl ihr =>
    simp only [preOrder, preOrderRec]
    rw [ihr, ihl, ihr (preOrderRec l ([] ++ [d])), ihl ([] ++ [d])]
    simp

theorem inOrderRec_eq (t : TreeNode α) (acc : List α) :
    inOrderRec t acc = acc ++ inOrder t := by
  induction t generalizing acc with
  | null => simp [inOrder, inOrderRec]
  | node d l r ihl ihr =>
    simp only [inOrder, inOrderRec]
    rw [ihr, ihl, ihr (inOrderRec l [] ++ [d]), ihl []]
    simp

theorem postOrderRec_eq (t : TreeNode α) (acc : List α) :
    postOrderRec t acc = acc ++ postOrder t := by
  induction t generalizing acc with
  | null => simp [postOrder, postOrderRec]
  | node d l r ihl ihr =>
    simp only [postOrder, postOrderRec]
    rw [ihr, ihl, ihr (postOrderRec l []), ihl []]
    simp

@[simp] theorem preOrder_null : preOrder (null : TreeNode α) = [] := rfl

@[simp] theorem inOrder_null : inOrder (null : TreeNode α) = [] := rfl

@[simp] theorem postOrder_null : postOrder (null : TreeNode α) = [] := rfl

theorem preOrder_node (d : α) (l r : TreeNode α) :
    preOrder (node d l r) = d :: (preOrder l ++ preOrder r) := by
  show preOrderRec r (preOrderRec l ([] ++ [d])) = _
  rw [preOrderRec_eq, preOrderRec_eq]
  simp

theorem inOrder_node (d : α) (l r : TreeNode α) :
    inOrder (node d l r) = inOrder l ++ d :: inOrder r := by
  show inOrderRec r (inOrderRec l [] ++ [d]) = _
  rw [inOrderRec_eq, inOrderRec_eq]
  simp

theorem postOrder_node (d : α) (l r : TreeNode α) :
    postOrder (node d l r) = postOrder l ++ postOrder r ++ [d] := by
  show postOrderRec r (postOrderRec l []) ++ [d] = _
  rw [postOrderRec_eq, postOrderRec_eq]
  simp

theorem length_preOrder (t : TreeNode α) : (preOrder t).length = size t := by
  induction t with
  | null => rfl
  | node d l r ihl ihr => simp [preOrder_node, size, ihl, ihr]; omega

theorem inOrder_perm_preOrder (t : TreeNode α) : (inOrder t).Perm (preOrder t) := by
  induction t with
  | null => simp
  | node d l r ihl ihr =>
    rw [inOrder_node, preOrder_node]
    exact List.perm_middle.trans ((ihl.append ihr).cons d)

theorem postOrder_perm_preOrder (t : TreeNode α) : (postOrder t).Perm (preOrder t) := by
  induction t with
  | null => simp
  | node d l r ihl ihr =>
    rw [postOrder_node, preOrder_node]
    exact (List.perm_append_singleton d _).trans ((ihl.append ihr).cons d)

/-- C4: each of the three traversals lists every node once: its length is the
node count, and the three sequences are permutations of one another. -/
theorem traversals_length_perm (t : TreeNode α) :
    (preOrder t).length = size t ∧ (inOrder t).length = size t ∧
    (postOrder t).length = size t ∧
    (preOrder t).Perm (inOrder t) ∧ (inOrder t).Perm (postOrder t) ∧
    (preOrder t).Perm (postOrder t) := by
  have hi := inOrder_perm_preOrder t
  have hp := postOrder_perm_preOrder t
  refine ⟨length_preOrder t, ?_, ?_, hi.symm, hi.trans hp.symm, hp.symm⟩
  · rw [hi.length_eq, length_preOrder]
  · rw [hp.length_eq, length_preOrder]

/-! ## Addresses -/

@[simp] theorem dataAt_null (p : List Bool) : dataAt (null : TreeNode α) p = none := by
  cases p <;> rfl

@[simp] theorem dataAt_node_nil (d : α) (l r : TreeNode α) :
    dataAt (node d l r) [] = some d := rfl

@[simp] theorem dataAt_node_false (d : α) (l r : TreeNode α) (p : List Bool) :
    dataAt (node d l r) (false :: p) = dataAt l p := rfl

@[simp] theorem dataAt_node_true (d : α) (l r : TreeNode α) (p : List Bool) :
    dataAt (node d l r) (true :: p) = dataAt r p := rfl

/-! ## find -/

theorem find_some [DecidableEq α] (v : α) (t : TreeNode α) (p : List Bool)
    (h : find v t = some p) : dataAt t p = some v := by
  induction t generalizing p with
  | null => simp [find] at h
  | node d l r ihl ihr =>
    rw [find] at h
    by_cases hd : d = v
    · simp only [hd, if_true, Option.some.injEq] at h
      subst h
      simp [hd]
    · simp only [hd, if_false] at h
      cases hl : find v l with
      | some q =>
        simp only [hl, Option.some.injEq] at h
        subst h
        simpa using ihl q hl
      | none =>
        simp only [hl, Option.map_eq_some'] at h
        obtain ⟨q, hq, rfl⟩ := h
        simpa using ihr q hq

theorem find_none [DecidableEq α] (v : α) (t : TreeNode α) (h : find v t = none)
    (p : List Bool) : dataAt t p ≠ some v := by
  induction t generalizing p with
  | null => simp
  | node d l r ihl ihr =>
    rw [find] at h
    by_cases hd : d = v
    · simp [hd] at h
    · simp only [hd, if_false] at h
      cases hl : find v l with
      | some q => simp [hl] at h
      | none =>
        simp only [hl, Option.map_eq_none'] at h
        match p with
        | [] => simpa using hd
        | false :: q => simpa using ihl hl q
        | true :: q => simpa using ihr h q

theorem find_eq_none_iff [DecidableEq α] (v : α) (t : TreeNode α) :
    find v t = none ↔ ∀ p, dataAt t p ≠ some v := by
  constructor
  · exact find_none v t
  · intro h
    cases hf : find v t with
    | none => rfl
    | some p => exact absurd (find_some v t p hf) (h p)

theorem length_preOrderNodes (t : TreeNode α) :
    (preOrderNodes t).length = (preOrder t).length := by
  induction t with
  | null => rfl
  | node d l r ihl ihr => simp [preOrderNodes, preOrder_node, ihl, ihr]

theorem map_dataAt_preOrderNodes (t : TreeNode α) :
    (preOrderNodes t).map (dataAt t) = (preOrder t).map some := by
  induction t with
  | null => rfl
  | node d l r ihl ihr =>
    simp only [preOrderNodes, preOrder_node, List.map_cons, List.map_append, List.map_map,
      dataAt_node_nil]
    rw [← ihl, ← ihr]
    rfl

theorem find_eq_getElem?_preOrderNodes [DecidableEq α] (v : α) (t : TreeNode α) :
    find v t = (preOrderNodes t)[(preOrder t).indexOf v]? := by
  induction t with
  | null => rfl
  | node d l r ihl ihr =>
    rw [find, preOrder_node, preOrderNodes]
    by_cases hd : d = v
    · simp [hd]
    · rw [if_neg hd, List.indexOf_cons_ne _ hd, List.getElem?_cons_succ]
      by_cases hm : v ∈ preOrder l
      · have hlt : (preOrder l).indexOf v < (preOrder l).length := List.indexOf_lt_length.2 hm
        rw [List.indexOf_append_of_mem hm, List.getElem?_append_left (by
          simpa [length_preOrderNodes] using hlt), List.getElem?_map, ← ihl]
        cases hf : find v l with
        | some q => rfl
        | none =>
          rw [ihl, List.getElem?_eq_none_iff, length_preOrderNodes] at hf
          omega
      · have hl : find v l = none := by
          rw [ihl, List.getElem?_eq_none_iff, length_preOrderNodes,
            List.indexOf_of_not_mem hm]
        rw [hl, List.indexOf_append_of_not_mem hm, List.getElem?_append_right (by
          simp [length_preOrderNodes]), List.getElem?_map, ihr]
        simp [length_preOrderNodes]

/-! ## Writes through an address -/

@[simp] theorem setSubtree_nil (t s : TreeNode α) : setSubtree t [] s = s := by
  cases t <;> rfl

@[simp] theorem setData_null (p : List Bool) (v : α) :
    setData (null : TreeNode α) p v = null := by
  cases p <;> rfl

theorem dataAt_setSubtree_null (t : TreeNode α) (p : List Bool) :
    dataAt (setSubtree t p null) p = none := by
  induction p generalizing t with
  | nil => simp
  | cons b p ih =>
    cases t with
    | null => simp [setSubtree]
    | node d l r => cases b <;> simp [setSubtree, ih]

theorem dataAt_setSubtree_off_path (t s : TreeNode α) (p q : List Bool)
    (h : ¬ p <+: q) : dataAt (setSubtree t p s) q = dataAt t q := by
  induction p generalizing t q with
  | nil => exact absurd List.nil_prefix h
  | cons b p ih =>
    cases t with
    | null => simp [setSubtree]
    | node d l r =>
      match q with
      | [] => cases b <;> simp [setSubtree]
      | c :: q =>
        have hpq : b = c → ¬ p <+: q := fun hbc hp => h (by
          subst hbc
          exact (List.prefix_cons_inj b).2 hp)
        cases b <;> cases c <;> simp [setSubtree]
        · exact ih l q (hpq rfl)
        · exact ih r q (hpq rfl)

theorem dataAt_setData_self (t : TreeNode α) (p : List Bool) (x y : α)
    (h : dataAt t p = some y) : dataAt (setData t p x) p = some x := by
  induction p generalizing t with
  | nil =>
    cases t with
    | null => simp at h
    | node d l r => rfl
  | cons b p ih =>
    cases t with
    | null => simp at h
    | node d l r =>
      cases b
      · exact ih l (by simpa using h)
      · exact ih r (by simpa using h)

theorem dataAt_setData_of_ne (t : TreeNode α) (p q : List Bool) (x : α) (h : q ≠ p) :
    dataAt (setData t p x) q = dataAt t q := by
  induction p generalizing t q with
  | nil =>
    cases t with
    | null => rfl
    | node d l r =>
      match q with
      | [] => exact absurd rfl h
      | false :: q => rfl
      | true :: q => rfl
  | cons b p ih =>
    cases t with
    | null => rfl
    | node d l r =>
      match q with
      | [] => cases b <;> rfl
      | c :: q =>
        have hpq : b = c → q ≠ p := fun hbc hp => h (by rw [hbc, hp])
        cases b <;> cases c <;> simp [setData]
        · exact ih l q (hpq rfl)
        · exact ih r q (hpq rfl)

theorem subtreeAt_append (t : TreeNode α) (p q : List Bool) :
    subtreeAt t (p ++ q) = (subtreeAt t p).bind (fun s => subtreeAt s q) := by
  induction p generalizing t with
  | nil => cases t <;> cases q <;> rfl
  | cons b p ih =>
    cases t with
    | null => rfl
    | node d l r => cases b <;> simp [subtreeAt, ih]

theorem dataAt_eq_none_of_subtreeAt_null (t : TreeNode α) (p : List Bool)
    (h : subtreeAt t p = some null) : dataAt t p = none := by
  simp [dataAt, h]

theorem dataAt_ne_none_of_subtreeAt (t s : TreeNode α) (p : List Bool)
    (h : subtreeAt t p = some s) (hs : s ≠ null) : dataAt t p ≠ none := by
  cases s with
  | null => exact absurd rfl hs
  | node d l r => simp [dataAt, h]

theorem size_setSubtree (t s s₁ : TreeNode α) (p : List Bool) (h : subtreeAt t p = some s) :
    size (setSubtree t p s₁) + size s = size t + size s₁ := by
  induction p generalizing t with
  | nil =>
    cases t <;> simp only [subtreeAt, Option.some.injEq] at h <;> subst h <;>
      simp [Nat.add_comm]
  | cons b p ih =>
    cases t with
    | null => simp [subtreeAt] at h
    | node d l r =>
      cases b
      · have := ih l (by simpa [subtreeAt] using h)
        simp only [setSubtree, size]
        omega
      · have := ih r (by simpa [subtreeAt] using h)
        simp only [setSubtree, size]
        omega

theorem preOrder_setSubtree_perm (t s s₁ : TreeNode α) (p : List Bool)
    (h : subtreeAt t p = some s) :
    (preOrder (setSubtree t p s₁) ++ preOrder s).Perm (preOrder t ++ preOrder s₁) := by
  induction p generalizing t with
  | nil =>
    cases t <;> simp only [subtreeAt, Option.some.injEq] at h <;> subst h <;>
      simp only [setSubtree_nil] <;> exact List.perm_append_comm
  | cons b p ih =>
    cases t with
    | null => simp [subtreeAt] at h
    | node d l r =>
      cases b
      · have hl := ih l (by simpa [subtreeAt] using h)
        simp only [setSubtree, preOrder_node, List.cons_append]
        refine List.Perm.cons d ?_
        rw [← Multiset.coe_eq_coe] at hl ⊢
        simp only [← Multiset.coe_add] at hl ⊢
        rw [add_right_comm, hl, add_right_comm]
      · have hr := ih r (by simpa [subtreeAt] using h)
        simp only [setSubtree, preOrder_node, List.cons_append]
        refine List.Perm.cons d ?_
        rw [← Multiset.coe_eq_coe] at hr ⊢
        simp only [← Multiset.coe_add] at hr ⊢
        rw [add_assoc, hr, add_assoc]

theorem subtreeAt_setSubtree_self (t s s₁ : TreeNode α) (p : List Bool)
    (h : subtreeAt t p = some s) : subtreeAt (setSubtree t p s₁) p = some s₁ := by
  induction p generalizing t with
  | nil => cases s₁ <;> simp [subtreeAt]
  | cons b p ih =>
    cases t with
    | null => simp [subtreeAt] at h
    | node d l r =>
      cases b
      · exact ih l (by simpa [subtreeAt] using h)
      · exact ih r (by simpa [subtreeAt] using h)

theorem dataAt_attach_leaf (t : TreeNode α) (v : α) (p q : List Bool)
    (h : subtreeAt t p = some null) :
    dataAt (setSubtree t p (node v null null)) q = if q = p then some v else dataAt t q := by
  induction p generalizing t q with
  | nil =>
    have ht : t = null := by cases t <;> simp_all [subtreeAt]
    subst ht
    match q with
    | [] => simp
    | false :: q => simp
    | true :: q => simp
  | cons b p ih =>
    cases t with
    | null => simp [subtreeAt] at h
    | node d l r =>
      match q with
      | [] => cases b <;> simp [setSubtree]
      | c :: q =>
        cases b <;> cases c <;> simp [setSubtree]
        · exact ih l q (by simpa [subtreeAt] using h)
        · exact ih r q (by simpa [subtreeAt] using h)

/-! ## insert -/

theorem insertLoop_spec (root newNode : TreeNode α) (q : List (List Bool × TreeNode α))
    (hq : q ≠ []) (hinv : ∀ e ∈ q, e.2 ≠ null ∧ subtreeAt root e.1 = some e.2) :
    ∃ p, subtreeAt root p = some null ∧
      insertLoop root newNode q = setSubtree root p newNode := by
  induction q using insertLoop.induct root newNode with
  | case1 => exact absurd rfl hq
  | case2 p tail => exact absurd rfl (hinv (p, null) (by simp)).1
  | case3 p d r tail =>
    refine ⟨p ++ [false], ?_, by rw [insertLoop]⟩
    rw [subtreeAt_append, (hinv (p, node d null r) (by simp)).2]
    rfl
  | case4 p d d₁ l₁ r₁ tail =>
    refine ⟨p ++ [true], ?_, by rw [insertLoop]⟩
    rw [subtreeAt_append, (hinv (p, node d (node d₁ l₁ r₁) null) (by simp)).2]
    rfl
  | case5 p d d₁ l₁ r₁ d₂ l₂ r₂ q ih =>
    have hp := (hinv (p, node d (node d₁ l₁ r₁) (node d₂ l₂ r₂)) (by simp)).2
    obtain ⟨p₀, hp₀, hloop⟩ := ih (by simp) (by
      intro e he
      simp only [List.mem_append, List.mem_cons, List.mem_singleton, List.not_mem_nil,
        or_false] at he
      rcases he with he | rfl | rfl
      · exact hinv e (List.mem_cons_of_mem _ he)
      · exact ⟨by simp, by rw [subtreeAt_append, hp]; rfl⟩
      · exact ⟨by simp, by rw [subtreeAt_append, hp]; rfl⟩)
    exact ⟨p₀, hp₀, by rw [insertLoop, hloop]⟩

theorem insert_eq_setSubtree (t : TreeNode α) (v : α) :
    ∃ p, subtreeAt t p = some null ∧ insert t v = setSubtree t p (node v null null) := by
  cases t with
  | null => exact ⟨[], rfl, rfl⟩
  | node d l r =>
    exact insertLoop_spec (node d l r) (node v null null) [([], node d l r)] (by simp) (by
      intro e he
      simp only [List.mem_singleton] at he
      subst he
      exact ⟨by simp, rfl⟩)

/-! ## Heap numbering and level-order filling -/

@[simp] theorem heapIndex_nil : heapIndex [] = 1 := rfl

@[simp] theorem heapIndex_concat (p : List Bool) (b : Bool) :
    heapIndex (p ++ [b]) = 2 * heapIndex p + (if b then 1 else 0) := by
  simp [heapIndex, List.foldl_append]

theorem heapIndex_pos (p : List Bool) : 1 ≤ heapIndex p := by
  induction p using List.reverseRecOn with
  | nil => simp
  | append_singleton p b ih => rw [heapIndex_concat]; omega

theorem heapIndex_injective (p q : List Bool) (h : heapIndex p = heapIndex q) : p = q := by
  induction p using List.reverseRecOn generalizing q with
  | nil =>
    induction q using List.reverseRecOn with
    | nil => rfl
    | append_singleton q b _ =>
      have := heapIndex_pos q
      rw [heapIndex_concat, heapIndex_nil] at h
      omega
  | append_singleton p a ih =>
    induction q using List.reverseRecOn with
    | nil =>
      have := heapIndex_pos p
      rw [heapIndex_concat, heapIndex_nil] at h
      omega
    | append_singleton q b _ =>
      rw [heapIndex_concat, heapIndex_concat] at h
      have hab : a = b := by
        cases a <;> cases b <;> simp at h ⊢ <;> omega
      subst hab
      have hpq : heapIndex p = heapIndex q := by omega
      rw [ih q hpq]

theorem heapIndex_surjective (n : Nat) (hn : 1 ≤ n) : ∃ p, heapIndex p = n := by
  induction n using Nat.strong_induction_on with
  | _ n ih =>
    by_cases h1 : n = 1
    · exact ⟨[], by simp [h1]⟩
    · obtain ⟨p, hp⟩ := ih (n / 2) (by omega) (by omega)
      refine ⟨p ++ [decide (n % 2 = 1)], ?_⟩
      rw [heapIndex_concat, hp]
      by_cases h2 : n % 2 = 1 <;> simp [h2] <;> omega

theorem insertLoop_complete (root newNode : TreeNode α) (n : Nat)
    (hc : ∀ p, dataAt root p ≠ none ↔ heapIndex p ≤ n)
    (q : List (List Bool × TreeNode α)) (k : Nat) (hk : 1 ≤ k)
    (hq : q.map (fun e => heapIndex e.1) = List.range' k k)
    (hinv : ∀ e ∈ q, e.2 ≠ null ∧ subtreeAt root e.1 = some e.2) :
    ∃ p, heapIndex p = n + 1 ∧ subtreeAt root p = some null ∧
      insertLoop root newNode q = setSubtree root p newNode := by
  -- every pointer in the queue is a node of the tree, the last one has number `2 * k - 1`
  have hlast : ∀ q : List (List Bool × TreeNode α), ∀ k, 1 ≤ k →
      q.map (fun e => heapIndex e.1) = List.range' k k →
      (∀ e ∈ q, e.2 ≠ null ∧ subtreeAt root e.1 = some e.2) → 2 * k - 1 ≤ n := by
    intro q k hk hq hinv
    have hmem : 2 * k - 1 ∈ q.map (fun e => heapIndex e.1) := by
      rw [hq, List.mem_range'_1]
      omega
    obtain ⟨e, he, hidx⟩ := List.mem_map.1 hmem
    have := (hc e.1).1 (dataAt_ne_none_of_subtreeAt root e.2 e.1 (hinv e he).2 (hinv e he).1)
    omega
  induction q using insertLoop.induct root newNode generalizing k with
  | case1 =>
    have := congrArg List.length hq
    simp at this
    omega
  | case2 p tail => exact absurd rfl (hinv (p, null) (by simp)).1
  | case3 p d r tail =>
    have hkn := hlast _ k hk hq hinv
    have hp := (hinv (p, node d null r) (by simp)).2
    have hidx : heapIndex p = k := by
      have := congrArg List.head? hq
      rw [show k = (k - 1) + 1 by omega, List.range'_succ] at this
      simp at this
      omega
    have hsub : subtreeAt root (p ++ [false]) = some null := by
      rw [subtreeAt_append, hp]
      rfl
    have hgt : ¬ heapIndex (p ++ [false]) ≤ n := fun hle =>
      (hc _).2 hle (dataAt_eq_none_of_subtreeAt_null root _ hsub)
    refine ⟨p ++ [false], ?_, hsub, by rw [insertLoop]⟩
    rw [heapIndex_concat, hidx] at hgt ⊢
    simp at hgt ⊢
    omega
  | case4 p d d₁ l₁ r₁ tail =>
    have hp := (hinv (p, node d (node d₁ l₁ r₁) null) (by simp)).2
    have hidx : heapIndex p = k := by
      have := congrArg List.head? hq
      rw [show k = (k - 1) + 1 by omega, List.range'_succ] at this
      simp at this
      omega
    have hsubl : subtreeAt root (p ++ [false]) = some (node d₁ l₁ r₁) := by
      rw [subtreeAt_append, hp]
      rfl
    have hsub : subtreeAt root (p ++ [true]) = some null := by
      rw [subtreeAt_append, hp]
      rfl
    have hle : heapIndex (p ++ [false]) ≤ n :=
      (hc _).1 (dataAt_ne_none_of_subtreeAt root _ _ hsubl (by simp))
    have hgt : ¬ heapIndex (p ++ [true]) ≤ n := fun hle =>
      (hc _).2 hle (dataAt_eq_none_of_subtreeAt_null root _ hsub)
    refine ⟨p ++ [true], ?_, hsub, by rw [insertLoop]⟩
    rw [heapIndex_concat, hidx] at hgt hle ⊢
    simp at hgt hle ⊢
    omega
  | case5 p d d₁ l₁ r₁ d₂ l₂ r₂ q ih =>
    have hp := (hinv (p, node d (node d₁ l₁ r₁) (node d₂ l₂ r₂)) (by simp)).2
    have hq2 := hq
    rw [show k = (k - 1) + 1 by omega, List.range'_succ] at hq2
    simp only [List.map_cons, List.cons.injEq] at hq2
    obtain ⟨hidx, htail⟩ := hq2
    have hidx2 : heapIndex p = k := by omega
    obtain ⟨p₀, hp₀, hsub, hloop⟩ := ih (k + 1) (by omega) (by
      rw [List.map_append, htail]
      simp only [List.map_cons, List.map_nil, heapIndex_concat, hidx2]
      rw [show k + 1 = (k - 1) + 1 + 1 by omega, List.range'_concat, List.range'_concat]
      simp
      omega) (by
      intro e he
      simp only [List.mem_append, List.mem_cons, List.mem_singleton, List.not_mem_nil,
        or_false] at he
      rcases he with he | rfl | rfl
      · exact hinv e (List.mem_cons_of_mem _ he)
      · exact ⟨by simp, by rw [subtreeAt_append, hp]; rfl⟩
      · exact ⟨by simp, by rw [subtreeAt_append, hp]; rfl⟩)
    exact ⟨p₀, hp₀, hsub, by rw [insertLoop, hloop]⟩

theorem insert_complete (t : TreeNode α) (v : α) (n : Nat)
    (hc : ∀ p, dataAt t p ≠ none ↔ heapIndex p ≤ n) :
    ∃ p, heapIndex p = n + 1 ∧ subtreeAt t p = some null ∧
      insert t v = setSubtree t p (node v null null) := by
  cases t with
  | null =>
    have h0 : n = 0 := by
      have := (hc []).not.1 (by simp)
      simp at this
      omega
    exact ⟨[], by simp [h0], rfl, rfl⟩
  | node d l r =>
    exact insertLoop_complete (node d l r) (node v null null) n hc [([], node d l r)] 1
      (le_refl 1) (by simp) (by
        intro e he
        simp only [List.mem_singleton] at he
        subst he
        exact ⟨by simp, rfl⟩)

theorem insertAll_concat (t : TreeNode α) (vs : List α) (v : α) :
    insertAll t (vs ++ [v]) = insert (insertAll t vs) v := by
  simp [insertAll, List.foldl_append]

theorem dataAt_insertAll (vs : List α) (p : List Bool) :
    dataAt (insertAll null vs) p = vs[heapIndex p - 1]? := by
  induction vs using List.reverseRecOn generalizing p with
  | nil => simp [insertAll]
  | append_singleton vs v ih =>
    have hc : ∀ p, dataAt (insertAll null vs) p ≠ none ↔ heapIndex p ≤ vs.length := by
      intro p
      have := heapIndex_pos p
      rw [ih p, ne_eq, List.getElem?_eq_none_iff]
      omega
    obtain ⟨p₀, hidx, hsub, hins⟩ := insert_complete (insertAll null vs) v vs.length hc
    rw [insertAll_concat, hins, dataAt_attach_leaf _ v p₀ p hsub]
    have hpos := heapIndex_pos p
    by_cases hp : p = p₀
    · subst hp
      simp [hidx]
    · rw [if_neg hp, ih p]
      have hne : heapIndex p ≠ vs.length + 1 := fun h =>
        hp (heapIndex_injective p p₀ (h.trans hidx.symm))
      by_cases hlt : heapIndex p - 1 < vs.length
      · rw [List.getElem?_append_left hlt]
      · rw [List.getElem?_eq_none_iff.2 (by omega), List.getElem?_eq_none_iff.2 (by
          simp only [List.length_append, List.length_singleton]
          omega)]

/-! ## deleteNode -/

theorem walkRight_spec (parent : Option (List Bool)) (cur : List Bool) (d : α)
    (l r : TreeNode α) :
    ∃ x, dataAt (node d l r) (rightChain (node d l r)) = some x ∧
      ((rightChain (node d l r) = [] ∧ walkRight parent cur d r = (parent, cur, x)) ∨
       ∃ pp, rightChain (node d l r) = pp ++ [true] ∧
         walkRight parent cur d r = (some (cur ++ pp), cur ++ pp ++ [true], x)) := by
  induction r generalizing parent cur d l with
  | null => exact ⟨d, rfl, Or.inl ⟨rfl, rfl⟩⟩
  | node d₂ l₂ r₂ _ ih =>
    obtain ⟨x, hx, hcase⟩ := ih (some cur) (cur ++ [true]) d₂ l₂
    refine ⟨x, by simpa [rightChain] using hx, Or.inr ?_⟩
    rcases hcase with ⟨hnil, hw⟩ | ⟨pp, hpp, hw⟩
    · exact ⟨[], by simp [rightChain, hnil], by simpa [walkRight] using hw⟩
    · exact ⟨true :: pp, by simp [rightChain, hpp], by simpa [walkRight] using hw⟩

theorem deleteNode_of_find [DecidableEq α] (t : TreeNode α) (v : α) (p : List Bool)
    (h : find v t = some p) :
    ∃ x, dataAt t (rightChain t) = some x ∧
      deleteNode t v = (Outcome.returned, setSubtree (setData t p x) (rightChain t) null) := by
  cases t with
  | null => simp [find] at h
  | node d l r =>
    obtain ⟨x, hx, hcase⟩ := walkRight_spec none [] d l r
    refine ⟨x, hx, ?_⟩
    rcases hcase with ⟨hnil, hw⟩ | ⟨pp, hpp, hw⟩
    · simp [deleteNode, h, hw, hnil, setSubtree]
    · simp [deleteNode, h, hw, hpp]

theorem deleteNode_of_find_none [DecidableEq α] (t : TreeNode α) (v : α)
    (h : find v t = none) :
    deleteNode t v = (Outcome.threw "Node does not exist.", t) := by
  simp [deleteNode, h]

/-! ## deleteNode: what is removed -/

theorem find_isSome_of_mem [DecidableEq α] (v : α) (t : TreeNode α) (h : v ∈ preOrder t) :
    ∃ p, find v t = some p := by
  have hlt : (preOrder t).indexOf v < (preOrderNodes t).length := by
    rw [length_preOrderNodes]
    exact List.indexOf_lt_length.2 h
  exact ⟨(preOrderNodes t)[(preOrder t).indexOf v], by
    rw [find_eq_getElem?_preOrderNodes, List.getElem?_eq_getElem hlt]⟩

theorem size_setData (t : TreeNode α) (p : List Bool) (x : α) :
    size (setData t p x) = size t := by
  induction p generalizing t with
  | nil => cases t <;> rfl
  | cons b p ih =>
    cases t with
    | null => rfl
    | node d l r => cases b <;> simp [setData, size, ih]

theorem preOrder_setData_perm (t : TreeNode α) (p : List Bool) (x y : α)
    (h : dataAt t p = some y) :
    (y :: preOrder (setData t p x)).Perm (x :: preOrder t) := by
  induction p generalizing t with
  | nil =>
    cases t with
    | null => simp at h
    | node d l r =>
      simp only [dataAt_node_nil, Option.some.injEq] at h
      subst h
      simp only [setData, preOrder_node]
      exact List.Perm.swap _ _ _
  | cons b p ih =>
    cases t with
    | null => simp at h
    | node d l r =>
      cases b
      · have hl := ih l (by simpa using h)
        simp only [setData, preOrder_node]
        rw [← Multiset.coe_eq_coe] at hl ⊢
        simp only [← Multiset.cons_coe, ← Multiset.coe_add] at hl ⊢
        rw [Multiset.cons_swap, ← Multiset.cons_add, hl, Multiset.cons_add, Multiset.cons_swap]
      · have hr := ih r (by simpa using h)
        simp only [setData, preOrder_node]
        rw [← Multiset.coe_eq_coe] at hr ⊢
        simp only [← Multiset.cons_coe, ← Multiset.coe_add] at hr ⊢
        rw [Multiset.cons_swap, ← Multiset.add_cons, hr, Multiset.add_cons, Multiset.cons_swap]

theorem subtreeAt_setData_leaf (t : TreeNode α) (c p : List Bool) (x : α)
    (hc : subtreeAt t c = some (node x null null)) (hp : dataAt t p ≠ none) :
    subtreeAt (setData t p x) c = some (node x null null) := by
  induction c generalizing t p with
  | nil =>
    have ht : t = node x null null := by cases t <;> simp_all [subtreeAt]
    subst ht
    match p with
    | [] => rfl
    | false :: p => simp at hp
    | true :: p => simp at hp
  | cons b c ih =>
    cases t with
    | null => simp [subtreeAt] at hc
    | node d l r =>
      match p with
      | [] => cases b <;> simpa [setData, subtreeAt] using hc
      | false :: p =>
        cases b
        · exact ih l p (by simpa [subtreeAt] using hc) (by simpa using hp)
        · simpa [setData, subtreeAt] using hc
      | true :: p =>
        cases b
        · simpa [setData, subtreeAt] using hc
        · exact ih r p (by simpa [subtreeAt] using hc) (by simpa using hp)

theorem subtreeAt_rightChain (t : TreeNode α) (h : t ≠ null) :
    ∃ x l, subtreeAt t (rightChain t) = some (node x l null) := by
  induction t with
  | null => exact absurd rfl h
  | node d l r _ ihr =>
    cases r with
    | null => exact ⟨d, l, rfl⟩
    | node d₂ l₂ r₂ =>
      obtain ⟨x, l₁, hx⟩ := ihr (by simp)
      exact ⟨x, l₁, by simpa [rightChain, subtreeAt] using hx⟩

theorem rightChain_all_true (t : TreeNode α) : ∀ b ∈ rightChain t, b = true := by
  induction t with
  | null => simp [rightChain]
  | node d l r _ ihr =>
    cases r with
    | null => simp [rightChain]
    | node d₂ l₂ r₂ =>
      intro b hb
      simp only [rightChain, List.mem_cons] at hb
      rcases hb with rfl | hb
      · rfl
      · exact ihr b hb

theorem heapIndex_all_true (p : List Bool) (h : ∀ b ∈ p, b = true) :
    heapIndex p + 1 = 2 ^ (p.length + 1) := by
  induction p using List.reverseRecOn with
  | nil => rfl
  | append_singleton p b ih =>
    have hb : b = true := h b (by simp)
    have hp := ih (fun c hc => h c (by simp [hc]))
    subst hb
    rw [heapIndex_concat, List.length_append, List.length_singleton, pow_succ]
    simp only [if_true]
    omega

theorem size_subtreeAt_setData (t : TreeNode α) (c p : List Bool) (x : α) :
    (subtreeAt (setData t p x) c).map size = (subtreeAt t c).map size := by
  induction c generalizing t p with
  | nil =>
    have h1 : subtreeAt (setData t p x) [] = some (setData t p x) := by
      cases setData t p x <;> rfl
    have h2 : subtreeAt t [] = some t := by cases t <;> rfl
    rw [h1, h2]
    simp [size_setData]
  | cons b c ih =>
    cases t with
    | null => simp
    | node d l r =>
      match p with
      | [] => cases b <;> simp [setData, subtreeAt]
      | false :: p => cases b <;> simp [setData, subtreeAt, ih]
      | true :: p => cases b <;> simp [setData, subtreeAt, ih]

theorem eq_null_of_dataAt_none (t s : TreeNode α) (q : List Bool)
    (hs : subtreeAt t q = some s) (hd : dataAt t q = none) : s = null := by
  cases s with
  | null => rfl
  | node d l r => simp [dataAt, hs] at hd

theorem size_insertAll (vs : List α) : size (insertAll null vs) = vs.length := by
  induction vs using List.reverseRecOn with
  | nil => rfl
  | append_singleton vs v ih =>
    obtain ⟨p, hp, hins⟩ := insert_eq_setSubtree (insertAll null vs) v
    rw [insertAll_concat, hins]
    have := size_setSubtree (insertAll null vs) null (node v null null) p hp
    simp [size] at this ⊢
    omega

theorem complete_insertAll (vs : List α) (p : List Bool) :
    dataAt (insertAll null vs) p ≠ none ↔ heapIndex p ≤ vs.length := by
  have := heapIndex_pos p
  rw [dataAt_insertAll vs p, ne_eq, List.getElem?_eq_none_iff]
  omega

theorem two_pow_eq_iff_of_chain (n c m : Nat) (hc : c + 1 = 2 ^ (m + 1)) (h1 : c ≤ n)
    (h2 : n ≤ 2 * c) : (∃ k, n + 2 = 2 ^ k) ↔ n = 2 * c := by
  constructor
  · rintro ⟨k, hk⟩
    have hlo : 2 ^ (m + 1) < 2 ^ k := by omega
    have hhi : 2 ^ k ≤ 2 ^ (m + 2) := by
      rw [pow_succ 2 (m + 1)]
      omega
    have h3 : m + 1 < k := (Nat.pow_lt_pow_iff_right (by decide)).1 hlo
    have h4 : k ≤ m + 2 := (Nat.pow_le_pow_iff_right (by decide)).1 hhi
    have h5 : k = m + 2 := by omega
    rw [h5, pow_succ 2 (m + 1)] at hk
    omega
  · intro h
    exact ⟨m + 2, by rw [pow_succ 2 (m + 1)]; omega⟩

theorem chain_insertAll (vs : List α) (hN : 1 ≤ vs.length) :
    ∃ x l, subtreeAt (insertAll null vs) (rightChain (insertAll null vs)) =
        some (node x l null) ∧
      ((∃ k, vs.length + 2 = 2 ^ k) ↔ l ≠ null) ∧
      (l = null ∨ ∃ y, l = node y null null) := by
  have hne : insertAll null vs ≠ null := by
    intro h
    have := size_insertAll vs
    rw [h] at this
    simp [size] at this
    omega
  obtain ⟨x, l, hsub⟩ := subtreeAt_rightChain (insertAll null vs) hne
  have hidx := heapIndex_all_true _ (rightChain_all_true (insertAll null vs))
  have hpos := heapIndex_pos (rightChain (insertAll null vs))
  have hcN : heapIndex (rightChain (insertAll null vs)) ≤ vs.length :=
    (complete_insertAll vs _).1 (by simp [dataAt, hsub])
  have hsubr : subtreeAt (insertAll null vs) (rightChain (insertAll null vs) ++ [true]) =
      some null := by
    rw [subtreeAt_append, hsub]
    rfl
  have hsubl : subtreeAt (insertAll null vs) (rightChain (insertAll null vs) ++ [false]) =
      some l := by
    rw [subtreeAt_append, hsub]
    cases l <;> rfl
  have hr : ¬ heapIndex (rightChain (insertAll null vs) ++ [true]) ≤ vs.length := fun hle =>
    (complete_insertAll vs _).2 hle (dataAt_eq_none_of_subtreeAt_null _ _ hsubr)
  rw [heapIndex_concat] at hr
  simp only [if_true] at hr
  have hl : l ≠ null ↔ 2 * heapIndex (rightChain (insertAll null vs)) ≤ vs.length := by
    have := complete_insertAll vs (rightChain (insertAll null vs) ++ [false])
    rw [heapIndex_concat] at this
    simp only [Bool.false_eq_true, if_false, Nat.add_zero] at this
    rw [← this]
    constructor
    · intro hl
      exact dataAt_ne_none_of_subtreeAt _ _ _ hsubl hl
    · intro hd hnull
      rw [hnull] at hsubl
      exact hd (dataAt_eq_none_of_subtreeAt_null _ _ hsubl)
  refine ⟨x, l, hsub, ?_, ?_⟩
  · rw [two_pow_eq_iff_of_chain vs.length _ _ hidx hcN (by omega), hl]
    omega
  · cases l with
    | null => exact Or.inl rfl
    | node y ll lr =>
      have h2 := hl.1 (by simp)
      refine Or.inr ⟨y, ?_⟩
      have hll : ll = null := by
        refine eq_null_of_dataAt_none (insertAll null vs) ll
          ((rightChain (insertAll null vs) ++ [false]) ++ [false]) ?_ ?_
        · rw [subtreeAt_append, hsubl]
          cases ll <;> rfl
        · by_contra hd
          have := (complete_insertAll vs _).1 hd
          simp only [heapIndex_concat, Bool.false_eq_true, if_false] at this
          omega
      have hlr : lr = null := by
        refine eq_null_of_dataAt_none (insertAll null vs) lr
          ((rightChain (insertAll null vs) ++ [false]) ++ [true]) ?_ ?_
        · rw [subtreeAt_append, hsubl]
          cases lr <;> rfl
        · by_contra hd
          have := (complete_insertAll vs _).1 hd
          simp only [heapIndex_concat, Bool.false_eq_true, if_false, if_true] at this
          omega
      rw [hll, hlr]

theorem size_deleteNode [DecidableEq α] (t s : TreeNode α) (v : α) (hv : v ∈ preOrder t)
    (hs : subtreeAt t (rightChain t) = some s) :
    (deleteNode t v).1 = Outcome.returned ∧ size (deleteNode t v).2 + size s = size t := by
  obtain ⟨p, hp⟩ := find_isSome_of_mem v t hv
  obtain ⟨y, _, hdel⟩ := deleteNode_of_find t v p hp
  have hmap := size_subtreeAt_setData t (rightChain t) p y
  rw [hs] at hmap
  cases hs₁ : subtreeAt (setData t p y) (rightChain t) with
  | none => simp [hs₁] at hmap
  | some s₁ =>
    simp only [hs₁, Option.map_some', Option.some.injEq] at hmap
    have := size_setSubtree (setData t p y) s₁ null (rightChain t) hs₁
    rw [hdel]
    simp only [size, size_setData] at this
    exact ⟨rfl, by simp only; omega⟩

/-! ## Height of a level-order filled tree -/

theorem lt_height_iff (t : TreeNode α) (k : Nat) :
    k < height t ↔ ∃ p : List Bool, p.length = k ∧ dataAt t p ≠ none := by
  induction t generalizing k with
  | null => simp [height]
  | node d l r ihl ihr =>
    cases k with
    | zero =>
      simp only [height]
      exact ⟨fun _ => ⟨[], rfl, by simp⟩, fun _ => by omega⟩
    | succ k =>
      have hk : k + 1 < height (node d l r) ↔ k < height l ∨ k < height r := by
        simp only [height]
        omega
      rw [hk, ihl, ihr]
      constructor
      · rintro (⟨p, hp, hd⟩ | ⟨p, hp, hd⟩)
        · exact ⟨false :: p, by simp [hp], by simpa using hd⟩
        · exact ⟨true :: p, by simp [hp], by simpa using hd⟩
      · rintro ⟨p, hp, hd⟩
        match p with
        | [] => simp at hp
        | false :: p => exact Or.inl ⟨p, by simpa using hp, by simpa using hd⟩
        | true :: p => exact Or.inr ⟨p, by simpa using hp, by simpa using hd⟩

theorem two_pow_length_le_heapIndex (p : List Bool) : 2 ^ p.length ≤ heapIndex p := by
  induction p using List.reverseRecOn with
  | nil => simp
  | append_singleton p b ih =>
    rw [heapIndex_concat, List.length_append, List.length_singleton, pow_succ]
    omega

theorem heapIndex_replicate_false (k : Nat) : heapIndex (List.replicate k false) = 2 ^ k := by
  induction k with
  | zero => rfl
  | succ k ih =>
    rw [List.replicate_succ', heapIndex_concat, ih, pow_succ]
    simp
    omega

theorem lt_height_insertAll (vs : List α) (k : Nat) :
    k < height (insertAll null vs) ↔ 2 ^ k ≤ vs.length := by
  rw [lt_height_iff]
  constructor
  · rintro ⟨p, hp, hd⟩
    have h1 := (complete_insertAll vs p).1 hd
    have h2 := two_pow_length_le_heapIndex p
    rw [hp] at h2
    omega
  · intro h
    exact ⟨List.replicate k false, by simp, (complete_insertAll vs _).2 (by
      rw [heapIndex_replicate_false]
      exact h)⟩

/-! ## Rendering -/

theorem stringSet_of_lt (s : List Char) (i : Nat) (c : Char) (h : i < s.length) :
    stringSet s (i : Int) c = some (s.set i c) := by
  simp [stringSet, h]

theorem length_branchLine (left right : NodeInfo) :
    (branchLine left right).length = left.width + 1 + right.width := by
  unfold branchLine
  by_cases hl : left.lines = [] <;> by_cases hr : right.lines = [] <;> simp [hl, hr]

theorem buildNode_spec (data : Char) (left right : NodeInfo)
    (hl : left.lines ≠ [] → 1 ≤ left.width) (hr : right.lines ≠ [] → 1 ≤ right.width) :
    buildNode data left right =
      some ⟨[data], left.width + 1 + right.width, left.width,
        (List.replicate left.width ' ' ++ [data] ++ List.replicate right.width ' ') ::
          branchLine left right :: mergedLines left right⟩ := by
  unfold buildNode branchLine mergedLines
  by_cases hl0 : left.lines = []
  · by_cases hr0 : right.lines = []
    · simp [hl0, hr0]
    · have hrw := hr hr0
      have h2 := stringSet_of_lt (List.replicate (left.width + 1 + right.width) ' ')
        (left.width + 1) (Char.ofNat 92) (by simp; omega)
      simp only [Nat.cast_add, Nat.cast_one] at h2
      simp [hl0, hr0, h2]
  · have hlw := hl hl0
    have h1 := stringSet_of_lt (List.replicate (left.width + 1 + right.width) ' ')
      (left.width - 1) '/' (by simp; omega)
    rw [Nat.cast_sub hlw] at h1
    simp only [Nat.cast_one] at h1
    by_cases hr0 : right.lines = []
    · simp [hl0, hr0, h1]
    · have hrw := hr hr0
      have h2 := stringSet_of_lt
        ((List.replicate (left.width + 1 + right.width) ' ').set (left.width - 1) '/')
        (left.width + 1) (Char.ofNat 92) (by simp; omega)
      simp only [Nat.cast_add, Nat.cast_one] at h2
      simp [hl0, hr0, h1, h2]

theorem height_eq_zero_iff (t : TreeNode α) : height t = 0 ↔ t = null := by
  cases t with
  | null => simp [height]
  | node d l r => simp [height]

theorem size_pos_of_ne_null (t : TreeNode α) (h : t ≠ null) : 1 ≤ size t := by
  cases t with
  | null => exact absurd rfl h
  | node d l r => simp only [size]; omega

theorem length_getD_of_forall (ls : List (List Char)) (i w : Nat) (d : List Char)
    (h : ∀ line ∈ ls, line.length = w) (hd : d.length = w) : (ls.getD i d).length = w := by
  rw [List.getD_eq_getElem?_getD]
  cases hi : ls[i]? with
  | none => simpa using hd
  | some line => simpa using h line (List.getElem?_mem hi)

theorem length_of_mem_mergedLines (left right : NodeInfo)
    (hl : ∀ line ∈ left.lines, line.length = left.width)
    (hr : ∀ line ∈ right.lines, line.length = right.width)
    (line : List Char) (h : line ∈ mergedLines left right) :
    line.length = left.width + 1 + right.width := by
  simp only [mergedLines, List.mem_map, List.mem_range] at h
  obtain ⟨i, _, rfl⟩ := h
  simp only [List.length_append, List.length_replicate]
  rw [length_getD_of_forall left.lines i left.width _ hl (by simp),
    length_getD_of_forall right.lines i right.width _ hr (by simp)]

theorem length_mergedLines (left right : NodeInfo) :
    (mergedLines left right).length = max left.lines.length right.lines.length := by
  simp [mergedLines]

theorem buildTree_spec (t : TreeNode Char) :
    ∃ info, buildTree t = some info ∧ info.width = size t ∧
      info.lines.length = 2 * height t ∧ ∀ line ∈ info.lines, line.length = info.width := by
  induction t with
  | null => exact ⟨⟨[], 0, 0, []⟩, rfl, rfl, rfl, by simp⟩
  | node d l r ihl ihr =>
    obtain ⟨left, hbl, hwl, hnl, hll⟩ := ihl
    obtain ⟨right, hbr, hwr, hnr, hlr⟩ := ihr
    have hl : left.lines ≠ [] → 1 ≤ left.width := by
      intro h
      rw [hwl]
      refine size_pos_of_ne_null l (fun hnull => h ?_)
      rw [hnull] at hnl
      simpa [height] using hnl
    have hr : right.lines ≠ [] → 1 ≤ right.width := by
      intro h
      rw [hwr]
      refine size_pos_of_ne_null r (fun hnull => h ?_)
      rw [hnull] at hnr
      simpa [height] using hnr
    refine ⟨_, by rw [buildTree, hbl, hbr]; exact buildNode_spec d left right hl hr, ?_, ?_, ?_⟩
    · simp [size, hwl, hwr]
    · simp only [List.length_cons, length_mergedLines, hnl, hnr, height]
      omega
    · intro line hline
      simp only [List.mem_cons] at hline
      rcases hline with rfl | rfl | hline
      · simp
        omega
      · exact length_branchLine left right
      · exact length_of_mem_mergedLines left right hll hlr line hline

theorem lines_ne_nil_iff (t : TreeNode Char) (info : NodeInfo) (h : buildTree t = some info) :
    info.lines ≠ [] ↔ t ≠ null := by
  obtain ⟨info₁, h₁, _, hn, _⟩ := buildTree_spec t
  rw [h, Option.some.injEq] at h₁
  subst h₁
  rw [← List.length_pos, hn, ne_eq, ← height_eq_zero_iff]
  omega

theorem width_pos_of_lines (t : TreeNode Char) (info : NodeInfo) (h : buildTree t = some info)
    (hne : info.lines ≠ []) : 1 ≤ info.width := by
  obtain ⟨info₁, h₁, hw, _, _⟩ := buildTree_spec t
  rw [h, Option.some.injEq] at h₁
  subst h₁
  rw [hw]
  exact size_pos_of_ne_null t ((lines_ne_nil_iff t info h).1 hne)

theorem buildTree_node (d : Char) (l r : TreeNode Char) :
    ∃ left right, buildTree l = some left ∧ buildTree r = some right ∧
      buildTree (node d l r) =
        some ⟨[d], left.width + 1 + right.width, left.width,
          (List.replicate left.width ' ' ++ [d] ++ List.replicate right.width ' ') ::
            branchLine left right :: mergedLines left right⟩ := by
  obtain ⟨left, hbl, _⟩ := buildTree_spec l
  obtain ⟨right, hbr, _⟩ := buildTree_spec r
  refine ⟨left, right, hbl, hbr, ?_⟩
  rw [buildTree, hbl, hbr]
  exact buildNode_spec d left right (width_pos_of_lines l left hbl)
    (width_pos_of_lines r right hbr)

theorem getElem?_branchLine (left right : NodeInfo) (j : Nat)
    (hj : j < left.width + 1 + right.width) :
    (branchLine left right)[j]? =
      some (if right.lines ≠ [] ∧ j = left.width + 1 then Char.ofNat 92
            else if left.lines ≠ [] ∧ j = left.width - 1 then '/' else ' ') := by
  unfold branchLine
  by_cases hl0 : left.lines = [] <;> by_cases hr0 : right.lines = [] <;>
    simp only [hl0, hr0, ne_eq, not_true_eq_false, not_false_eq_true, if_true, if_false,
      false_and, true_and, List.getElem?_set, List.length_set, List.length_replicate,
      List.getElem?_replicate, hj]
  · by_cases h : left.width + 1 = j
    · subst h
      simp
      omega
    · simp [h, Ne.symm h]
  · by_cases h : left.width - 1 = j
    · subst h
      simpa using hj
    · simp [h, Ne.symm h]
  · by_cases h : left.width + 1 = j
    · subst h
      simp
      omega
    · by_cases h2 : left.width - 1 = j
      · subst h2
        simpa [h, Ne.symm h] using hj
      · simp [h, Ne.symm h, h2, Ne.symm h2]

/-- C3: `height()` is 0 on the empty tree, 1 after a single insert into the
empty tree, and 3 after inserting 1, 2, ..., 7 in order. -/
theorem height_examples :
    height (null : TreeNode Nat) = 0 ∧
    (∀ v : Nat, height (insert null v) = 1) ∧
    height (insertAll (null : TreeNode Nat) [1, 2, 3, 4, 5, 6, 7]) = 3 := by
  refine ⟨rfl, fun v => rfl, ?_⟩
  simp [insertAll, insert, insertLoop, setSubtree, height]

/-- C5: inserting 1, 2, 3, 4, 5 in order into the empty tree and calling
`inOrder()` gives exactly 4, 2, 5, 1, 3. -/
theorem inOrder_insert_one_to_five :
    inOrder (insertAll (null : TreeNode Nat) [1, 2, 3, 4, 5]) = [4, 2, 5, 1, 3] := by
  simp [insertAll, insert, insertLoop, setSubtree, inOrder, inOrderRec]

/-- C6: `find` returns "not found" exactly when no node of the tree holds the
target (so always on the empty tree); any node it returns is a node of the
tree whose value is the target. -/
theorem find_spec [DecidableEq α] (t : TreeNode α) (v : α) :
    (find v t = none ↔ ∀ p, dataAt t p ≠ some v) ∧
    (∀ p, find v t = some p → dataAt t p = some v) ∧
    find v (null : TreeNode α) = none :=
  ⟨find_eq_none_iff v t, find_some v t, rfl⟩

/-- C6, at a concrete tree: looking for 5 in the tree of 1, 2, 5 returns the
right child of the root, which holds 5. -/
theorem find_spec_witness :
    find 5 (node 1 (node 2 null null) (node 5 null null)) = some [true] ∧
    dataAt (node 1 (node 2 null null) (node 5 null null)) [true] = some 5 :=
  ⟨by decide, (find_spec (node 1 (node 2 null null) (node 5 null null)) 5).2.1 [true]
    (by decide)⟩

/-- C7: `find` returns the node standing, in the pre-order sequence of the
nodes, at the index of the first occurrence of the value in `preOrder()` (and
nothing when the value does not occur); `preOrder()` lists the values of that
node sequence. -/
theorem find_first_in_preOrder [DecidableEq α] (t : TreeNode α) (v : α) :
    find v t = (preOrderNodes t)[(preOrder t).indexOf v]? ∧
    (preOrderNodes t).map (dataAt t) = (preOrder t).map some :=
  ⟨find_eq_getElem?_preOrderNodes v t, map_dataAt_preOrderNodes t⟩

/-- C8: `deleteNode` throws "Node does not exist." exactly when no node holds
the value (and returns normally exactly when some node does); when it throws,
the tree is the one before the call, so the three traversals and `height()`
give the same results as before. -/
theorem deleteNode_notFound [DecidableEq α] (t : TreeNode α) (v : α) :
    ((deleteNode t v).1 = Outcome.threw "Node does not exist." ↔
      ∀ p, dataAt t p ≠ some v) ∧
    ((deleteNode t v).1 = Outcome.returned ↔ ∃ p, dataAt t p = some v) ∧
    ((deleteNode t v).1 = Outcome.threw "Node does not exist." →
      (deleteNode t v).2 = t ∧
      preOrder (deleteNode t v).2 = preOrder t ∧
      inOrder (deleteNode t v).2 = inOrder t ∧
      postOrder (deleteNode t v).2 = postOrder t ∧
      height (deleteNode t v).2 = height t) := by
  cases hf : find v t with
  | none =>
    have hn := find_none v t hf
    rw [deleteNode_of_find_none t v hf]
    refine ⟨⟨fun _ => hn, fun _ => rfl⟩, ⟨fun h => by simp at h, ?_⟩, fun _ => ?_⟩
    · rintro ⟨p, hp⟩
      exact absurd hp (hn p)
    · exact ⟨rfl, rfl, rfl, rfl, rfl⟩
  | some p =>
    have hs := find_some v t p hf
    obtain ⟨x, _, hdel⟩ := deleteNode_of_find t v p hf
    rw [hdel]
    refine ⟨⟨fun h => by simp at h, fun h => absurd hs (h p)⟩, ⟨fun _ => ⟨p, hs⟩, fun _ => rfl⟩,
      fun h => by simp at h⟩

/-- C8, at a concrete tree: deleting 5 from the tree of 1 and 2 throws and
leaves the tree as it was. -/
theorem deleteNode_notFound_witness :
    (deleteNode (node 1 (node 2 null null) null) 5).1 = Outcome.threw "Node does not exist." ∧
    (deleteNode (node 1 (node 2 null null) null) 5).2 = node 1 (node 2 null null) null :=
  ⟨by decide, ((deleteNode_notFound (node 1 (node 2 null null) null) 5).2.2 (by decide)).1⟩

/-- C9: `deleteNode(v)` on the one-node tree holding `v` returns normally and
empties the tree: afterwards `height()` is 0 and the three traversals are
empty. -/
theorem deleteNode_single [DecidableEq α] (v : α) :
    insert null v = node v null null ∧
    deleteNode (node v null null) v = (Outcome.returned, null) ∧
    height (deleteNode (node v null null) v).2 = 0 ∧
    preOrder (deleteNode (node v null null) v).2 = [] ∧
    inOrder (deleteNode (node v null null) v).2 = [] ∧
    postOrder (deleteNode (node v null null) v).2 = [] := by
  have h : deleteNode (node v null null) v = (Outcome.returned, null) := by
    simp [deleteNode, find, walkRight]
  rw [h]
  exact ⟨rfl, rfl, rfl, rfl, rfl, rfl⟩

/-- C10: when `find` locates the value at node `p`, `deleteNode` returns
normally, the tree afterwards is the old one with the value `x` of the
rightmost-right-chain node written into `p` and the pointer to that chain node
cleared; so there is no node at the chain address any more, and `p` holds `x`
unless it was detached with the chain node.  On the tree of 1, ..., 7,
`deleteNode(1)` leaves a tree whose pre-order is 7, 2, 4, 5, 3, 6. -/
theorem deleteNode_copies_lastRight :
    (∀ (t : TreeNode α) [DecidableEq α] (v : α) (p : List Bool), find v t = some p →
      ∃ x, dataAt t (rightChain t) = some x ∧
        deleteNode t v =
          (Outcome.returned, setSubtree (setData t p x) (rightChain t) null) ∧
        dataAt (deleteNode t v).2 (rightChain t) = none ∧
        (¬ rightChain t <+: p → dataAt (deleteNode t v).2 p = some x)) ∧
    rightChain (insertAll (null : TreeNode Nat) [1, 2, 3, 4, 5, 6, 7]) = [true, true] ∧
    preOrder (deleteNode (insertAll (null : TreeNode Nat) [1, 2, 3, 4, 5, 6, 7]) 1).2 =
      [7, 2, 4, 5, 3, 6] := by
  refine ⟨?_, ?_⟩
  · intro t _ v p h
    obtain ⟨x, hx, hdel⟩ := deleteNode_of_find t v p h
    refine ⟨x, hx, hdel, ?_, ?_⟩
    · rw [hdel]
      exact dataAt_setSubtree_null _ _
    · intro hpre
      rw [hdel]
      show dataAt (setSubtree (setData t p x) (rightChain t) null) p = some x
      rw [dataAt_setSubtree_off_path _ _ _ _ hpre]
      exact dataAt_setData_self t p x v (find_some v t p h)
  · have hins : insertAll (null : TreeNode Nat) [1, 2, 3, 4, 5, 6, 7] =
        node 1 (node 2 (node 4 null null) (node 5 null null))
          (node 3 (node 6 null null) (node 7 null null)) := by
      simp [insertAll, insert, insertLoop, setSubtree]
    rw [hins]
    exact ⟨by decide, by decide⟩

/-- C10, at a concrete tree: deleting 2 from the tree of 1, 2, 3 writes 3 into
the node that held 2 and removes the right child of the root. -/
theorem deleteNode_copies_lastRight_witness :
    find 2 (node 1 (node 2 null null) (node 3 null null)) = some [false] ∧
    deleteNode (node 1 (node 2 null null) (node 3 null null)) 2 =
      (Outcome.returned, node 1 (node 3 null null) null) := by
  refine ⟨by decide, ?_⟩
  obtain ⟨x, hx, hdel, _⟩ := (@deleteNode_copies_lastRight Nat).1
    (node 1 (node 2 null null) (node 3 null null)) 2 [false] (by decide)
  have hx3 : x = 3 := by
    have : dataAt (node 1 (node 2 null null) (node 3 null null)) [true] = some x := hx
    simpa using this.symm
  rw [hdel, hx3]
  rfl

/-- C2: on every tree, `insert(v)` returns having written one new leaf holding
`v` into a pointer slot `p` that was null: the node at `p` is that leaf, every
other address holds what it held before, the node count grows by one and the
values are the old ones plus one `v`. -/
theorem insert_attaches_leaf (t : TreeNode α) (v : α) :
    ∃ p, subtreeAt t p = some null ∧
      insert t v = setSubtree t p (node v null null) ∧
      subtreeAt (insert t v) p = some (node v null null) ∧
      (∀ q, q ≠ p → dataAt (insert t v) q = dataAt t q) ∧
      size (insert t v) = size t + 1 ∧
      (preOrder (insert t v)).Perm (v :: preOrder t) := by
  obtain ⟨p, hp, hins⟩ := insert_eq_setSubtree t v
  refine ⟨p, hp, hins, ?_, ?_, ?_, ?_⟩
  · rw [hins]
    exact subtreeAt_setSubtree_self t null _ p hp
  · intro q hq
    rw [hins, dataAt_attach_leaf t v p q hp, if_neg hq]
  · have := size_setSubtree t null (node v null null) p hp
    rw [hins]
    simpa [size] using this
  · have := preOrder_setSubtree_perm t null (node v null null) p hp
    rw [hins]
    simpa [preOrder_node] using this.trans List.perm_append_comm

/-- C1: inserting `v1..vN` in order into the empty tree gives the complete tree
filled level by level, left before right.  In heap numbering the node at
address `p` exists exactly when its number is at most `N`, the node numbered
`i` holds `vi`, every number from 1 to `N` is the number of a node holding the
value of that rank, and the tree has `N` nodes, whatever the values are. -/
theorem insertAll_level_order (vs : List α) :
    (∀ p, dataAt (insertAll null vs) p ≠ none ↔ heapIndex p ≤ vs.length) ∧
    (∀ p, dataAt (insertAll null vs) p = vs[heapIndex p - 1]?) ∧
    (∀ i, i < vs.length → ∃ p, heapIndex p = i + 1 ∧ dataAt (insertAll null vs) p = vs[i]?) ∧
    size (insertAll null vs) = vs.length := by
  refine ⟨?_, dataAt_insertAll vs, ?_, ?_⟩
  · intro p
    have := heapIndex_pos p
    rw [dataAt_insertAll vs p, ne_eq, List.getElem?_eq_none_iff]
    omega
  · intro i _
    obtain ⟨p, hp⟩ := heapIndex_surjective (i + 1) (by omega)
    exact ⟨p, hp, by rw [dataAt_insertAll vs p, hp]; rfl⟩
  · induction vs using List.reverseRecOn with
    | nil => rfl
    | append_singleton vs v ih =>
      obtain ⟨p, hp, hins⟩ := insert_eq_setSubtree (insertAll null vs) v
      rw [insertAll_concat, hins]
      have := size_setSubtree (insertAll null vs) null (node v null null) p hp
      simp [size] at this ⊢
      omega

/-- C11: rendering the single-node tree holding `x` gives exactly two lines:
the one-character token of `x`, then a line of one space, which contains
neither `/` nor a backslash; `print()` writes these two lines. -/
theorem render_single (x : Char) :
    insert null x = node x null null ∧
    buildTree (node x null null) = some ⟨[x], 1, 0, [[x], [' ']]⟩ ∧
    print (node x null null) = some [[x], [' ']] ∧
    '/' ∉ [' '] ∧ Char.ofNat 92 ∉ [' '] := by
  have h : buildTree (node x null null) = some ⟨[x], 1, 0, [[x], [' ']]⟩ := by
    simp [buildTree, buildNode]
  refine ⟨rfl, h, ?_, by decide, by decide⟩
  rw [print, h]
  rfl

/-- C12: the empty subtree renders to a zero-width result with no lines, and
`print()` on the empty tree writes nothing. -/
theorem render_empty :
    buildTree null = some ⟨[], 0, 0, []⟩ ∧ print null = some [] :=
  ⟨rfl, rfl⟩

/-- C13: on the tree built by inserting 1, ..., 6, `deleteNode(1)` detaches
node 3 together with its left child 6: the tree had 6 nodes, the chain node is
the right child of the root and holds 3 with left child 6, and 4 nodes
(3, 2, 4, 5) are left, so two nodes were removed by one call. -/
theorem deleteNode_drops_subtree :
    size (insertAll (null : TreeNode Nat) [1, 2, 3, 4, 5, 6]) = 6 ∧
    rightChain (insertAll (null : TreeNode Nat) [1, 2, 3, 4, 5, 6]) = [true] ∧
    subtreeAt (insertAll (null : TreeNode Nat) [1, 2, 3, 4, 5, 6]) [true] =
      some (node 3 (node 6 null null) null) ∧
    deleteNode (insertAll (null : TreeNode Nat) [1, 2, 3, 4, 5, 6]) 1 =
      (Outcome.returned, node 3 (node 2 (node 4 null null) (node 5 null null)) null) ∧
    size (deleteNode (insertAll (null : TreeNode Nat) [1, 2, 3, 4, 5, 6]) 1).2 = 4 := by
  have hins : insertAll (null : TreeNode Nat) [1, 2, 3, 4, 5, 6] =
      node 1 (node 2 (node 4 null null) (node 5 null null)) (node 3 (node 6 null null) null) := by
    simp [insertAll, insert, insertLoop, setSubtree]
  rw [hins]
  exact ⟨by decide, by decide, by decide, by decide, by decide⟩

/-- C14: for a non-null node with child renderings `left` and `right`, the
second line of its rendering has the total width as its length, has `/` at
column `left.width - 1` exactly when the left child exists, has a backslash at
column `left.width + 1` (one token further) exactly when the right child
exists, and is a space at every other column. -/
theorem branch_line_spec (d : Char) (l r : TreeNode Char) :
    ∃ left right info branch,
      buildTree l = some left ∧ buildTree r = some right ∧
      buildTree (node d l r) = some info ∧
      info.width = left.width + 1 + right.width ∧
      info.lines[1]? = some branch ∧
      branch.length = info.width ∧
      (l ≠ null ↔ ∃ j : Nat, (j : Int) = (left.width : Int) - 1 ∧ branch[j]? = some '/') ∧
      (r ≠ null ↔ branch[left.width + 1]? = some (Char.ofNat 92)) ∧
      (∀ j : Nat, j < info.width → (j : Int) ≠ (left.width : Int) - 1 → j ≠ left.width + 1 →
        branch[j]? = some ' ') := by
  obtain ⟨left, right, hbl, hbr, hb⟩ := buildTree_node d l r
  have hl := lines_ne_nil_iff l left hbl
  have hr := lines_ne_nil_iff r right hbr
  have hlw := width_pos_of_lines l left hbl
  have hrw := width_pos_of_lines r right hbr
  refine ⟨left, right, _, branchLine left right, hbl, hbr, hb, rfl, by simp,
    length_branchLine left right, ?_, ?_, ?_⟩
  · rw [← hl]
    constructor
    · intro hne
      have hw := hlw hne
      refine ⟨left.width - 1, by omega, ?_⟩
      rw [getElem?_branchLine left right _ (by omega)]
      have h1 : left.width - 1 ≠ left.width + 1 := by omega
      simp [h1, hne]
    · rintro ⟨j, hj, hget⟩ hnil
      have hjlt : j < left.width + 1 + right.width := by
        rw [← length_branchLine left right]
        exact (List.getElem?_eq_some.1 hget).1
      rw [getElem?_branchLine left right j hjlt] at hget
      simp only [hnil, ne_eq, not_true_eq_false, false_and, if_false, Option.some.injEq] at hget
      split at hget <;> exact absurd hget (by decide)
  · rw [← hr]
    constructor
    · intro hne
      have hw := hrw hne
      rw [getElem?_branchLine left right _ (by omega)]
      simp [hne]
    · intro hget hnil
      have hjlt : left.width + 1 < left.width + 1 + right.width := by
        rw [← length_branchLine left right]
        exact (List.getElem?_eq_some.1 hget).1
      rw [getElem?_branchLine left right _ hjlt] at hget
      simp only [hnil, ne_eq, not_true_eq_false, false_and, if_false, Option.some.injEq] at hget
      split at hget <;> exact absurd hget (by decide)
  · intro j hj h1 h2
    rw [getElem?_branchLine left right j hj]
    have h3 : ¬ (left.lines ≠ [] ∧ j = left.width - 1) := by
      rintro ⟨hne, hje⟩
      have hw := hlw hne
      omega
    simp [h2, h3]

/-- C17: `buildTree` never writes a branch symbol outside the branch line: it
returns a rendering for every tree, and at every non-null node, when the left
rendering has lines `0 ≤ left.width - 1 < width`, and when the right rendering
has lines `left.width + 1 < width`. -/
theorem buildTree_writes_in_range (t : TreeNode Char) :
    (∃ info, buildTree t = some info) ∧
    (∀ d l r, t = node d l r → ∃ left right,
      buildTree l = some left ∧ buildTree r = some right ∧
      buildNode d left right ≠ none ∧
      (left.lines ≠ [] → (0 : Int) ≤ (left.width : Int) - 1 ∧
        (left.width : Int) - 1 < ((left.width + 1 + right.width : Nat) : Int)) ∧
      (right.lines ≠ [] → left.width + 1 < left.width + 1 + right.width)) := by
  refine ⟨?_, ?_⟩
  · obtain ⟨info, h, _⟩ := buildTree_spec t
    exact ⟨info, h⟩
  · intro d l r _
    obtain ⟨left, hbl, _⟩ := buildTree_spec l
    obtain ⟨right, hbr, _⟩ := buildTree_spec r
    have hlw := width_pos_of_lines l left hbl
    have hrw := width_pos_of_lines r right hbr
    refine ⟨left, right, hbl, hbr, ?_, ?_, ?_⟩
    · rw [buildNode_spec d left right hlw hrw]
      simp
    · intro hne
      have := hlw hne
      omega
    · intro hne
      have := hrw hne
      omega

/-- C18: the rendering returned by `buildTree` is rectangular: every line has
exactly `width` characters, and `width` is the number of nodes of the subtree. -/
theorem buildTree_rectangular (t : TreeNode Char) :
    ∃ info, buildTree t = some info ∧
      (∀ line ∈ info.lines, line.length = info.width) ∧ info.width = size t := by
  obtain ⟨info, h, hw, _, hlines⟩ := buildTree_spec t
  exact ⟨info, h, hlines, hw⟩

/-- C20: `buildTree` returns twice as many lines as the subtree is high: none
for the empty subtree, and two more than the larger of the two children's line
counts for a non-null node. -/
theorem buildTree_line_count (t : TreeNode Char) :
    (∃ info, buildTree t = some info ∧ info.lines.length = 2 * height t) ∧
    (∃ info, buildTree null = some info ∧ info.lines.length = 0) ∧
    (∀ d l r, ∃ left right info,
      buildTree l = some left ∧ buildTree r = some right ∧
      buildTree (node d l r) = some info ∧
      info.lines.length = 2 + max left.lines.length right.lines.length) := by
  refine ⟨?_, ⟨_, rfl, rfl⟩, ?_⟩
  · obtain ⟨info, h, _, hn, _⟩ := buildTree_spec t
    exact ⟨info, h, hn⟩
  · intro d l r
    obtain ⟨left, right, hbl, hbr, hb⟩ := buildTree_node d l r
    refine ⟨left, right, _, hbl, hbr, hb, ?_⟩
    simp only [List.length_cons, length_mergedLines]
    omega

/-- C15: when the rightmost-right-chain node is a leaf (holding `x`) and `v`
occurs in the tree, `deleteNode(v)` returns normally, removes exactly one node,
and the values left are the old ones with one occurrence of `v` taken out. -/
theorem deleteNode_leaf_chain [DecidableEq α] (t : TreeNode α) (v x : α)
    (hleaf : subtreeAt t (rightChain t) = some (node x null null))
    (hv : v ∈ preOrder t) :
    (deleteNode t v).1 = Outcome.returned ∧
    size (deleteNode t v).2 + 1 = size t ∧
    (v :: preOrder (deleteNode t v).2).Perm (preOrder t) ∧
    (preOrder (deleteNode t v).2 : Multiset α) = (preOrder t : Multiset α).erase v := by
  obtain ⟨p, hp⟩ := find_isSome_of_mem v t hv
  obtain ⟨y, hy, hdel⟩ := deleteNode_of_find t v p hp
  have hxy : y = x := by
    simp only [dataAt, hleaf, Option.some.injEq] at hy
    exact hy.symm
  subst hxy
  have hpv := find_some v t p hp
  have hsub := subtreeAt_setData_leaf t (rightChain t) p y hleaf (by simp [hpv])
  have hsize := size_setSubtree (setData t p y) (node y null null) null (rightChain t) hsub
  have hperm := preOrder_setSubtree_perm (setData t p y) (node y null null) null
    (rightChain t) hsub
  have hdata := preOrder_setData_perm t p y v hpv
  rw [hdel]
  simp only [size, size_setData, preOrder_node, preOrder_null, List.append_nil] at hsize hperm
  have hfinal : (v :: preOrder (setSubtree (setData t p y) (rightChain t) null)).Perm
      (preOrder t) := by
    have h1 : (y :: v :: preOrder (setSubtree (setData t p y) (rightChain t) null)).Perm
        (y :: preOrder t) :=
      (List.Perm.swap _ _ _).trans
        (((List.perm_append_singleton y _).symm.trans hperm).cons v |>.trans hdata)
    exact h1.cons_inv
  refine ⟨rfl, by simpa using hsize, hfinal, ?_⟩
  show ((preOrder (setSubtree (setData t p y) (rightChain t) null) : List α) : Multiset α) = _
  rw [← Multiset.coe_eq_coe.2 hfinal, ← Multiset.cons_coe, Multiset.erase_cons_head]

/-- C15, at a concrete tree: deleting 1 from the tree of 1, 2, 3 (whose chain
node, holding 3, is a leaf) leaves two nodes. -/
theorem deleteNode_leaf_chain_witness :
    size (deleteNode (node 1 (node 2 null null) (node 3 null null)) 1).2 + 1 = 3 :=
  (deleteNode_leaf_chain (node 1 (node 2 null null) (node 3 null null)) 1 3
    (by decide) (by decide)).2.1

/-- C16: after `N ≥ 1` inserts into the empty tree, a `deleteNode` of a value
that occurs in the tree returns normally and leaves `N - 1` nodes when `N + 2`
is not a power of two, and `N - 2` nodes when it is: in that case the
rightmost-right-chain node has a left child (a leaf), discarded with it. -/
theorem deleteNode_size_after_inserts [DecidableEq α] (vs : List α) (v : α)
    (hN : 1 ≤ vs.length) (hv : v ∈ preOrder (insertAll null vs)) :
    (deleteNode (insertAll null vs) v).1 = Outcome.returned ∧
    ((¬ ∃ k, vs.length + 2 = 2 ^ k) →
      size (deleteNode (insertAll null vs) v).2 = vs.length - 1) ∧
    ((∃ k, vs.length + 2 = 2 ^ k) →
      size (deleteNode (insertAll null vs) v).2 = vs.length - 2 ∧
      ∃ x y, subtreeAt (insertAll null vs) (rightChain (insertAll null vs)) =
        some (node x (node y null null) null)) := by
  obtain ⟨x, l, hsub, hiff, hshape⟩ := chain_insertAll vs hN
  obtain ⟨hret, hsize⟩ := size_deleteNode (insertAll null vs) _ v hv hsub
  rw [size_insertAll] at hsize
  refine ⟨hret, ?_, ?_⟩
  · intro hnot
    have hl : l = null := by
      by_contra hl
      exact hnot (hiff.2 hl)
    rw [hl] at hsize
    simp only [size] at hsize
    omega
  · intro hpow
    have hl := hiff.1 hpow
    rcases hshape with hnull | ⟨y, hy⟩
    · exact absurd hnull hl
    · subst hy
      simp only [size] at hsize
      exact ⟨by omega, x, y, hsub⟩

/-- C16, at concrete trees: after inserting 1, 2 (so `N + 2 = 4`) deleting 1
leaves 0 nodes. -/
theorem deleteNode_size_after_inserts_witness :
    size (deleteNode (insertAll (null : TreeNode Nat) [1, 2]) 1).2 = 0 :=
  ((deleteNode_size_after_inserts [1, 2] 1 (by decide)
    (by simp [insertAll, insert, insertLoop, setSubtree, preOrder, preOrderRec])).2.2
      ⟨2, by decide⟩).1

/-- C19: the tree built by inserting `N` values into the empty tree has
`height()` 0 when `N = 0` and `floor(log2 N) + 1`, the bit length of `N`, when
`N ≥ 1`. -/
theorem height_insertAll (vs : List α) :
    height (insertAll null vs) =
      (if vs.length = 0 then 0 else Nat.log 2 vs.length + 1) ∧
    height (insertAll null vs) = Nat.size vs.length := by
  have hsize : height (insertAll null vs) = Nat.size vs.length := by
    apply le_antisymm
    · by_contra hlt
      have h1 := (lt_height_insertAll vs (Nat.size vs.length)).1 (by omega)
      have h2 := Nat.lt_size.2 h1
      omega
    · by_contra hlt
      have h1 := Nat.lt_size.1 (show height (insertAll null vs) < Nat.size vs.length by omega)
      have h2 := (lt_height_insertAll vs (height (insertAll null vs))).2 h1
      omega
  refine ⟨?_, hsize⟩
  by_cases h0 : vs.length = 0
  · rw [if_pos h0, hsize, h0]
    simp
  · rw [if_neg h0]
    apply le_antisymm
    · by_contra hlt
      have h1 := (lt_height_insertAll vs (Nat.log 2 vs.length + 1)).1 (by omega)
      have h2 := Nat.lt_pow_succ_log_self (by decide : 1 < 2) vs.length
      omega
    · exact (lt_height_insertAll vs (Nat.log 2 vs.length)).2
        (Nat.pow_log_le_self 2 h0)

end BinaryTree
